import Mathlib

/-!
Verification of the svelte-twoslash position-mapping pipeline.

This file gives a shallow embedding of the coordinate-transformation core of
the repository (file `src/sites/kit.svelte.dev/src/lib/docs/server/svelte-twoslash.js`):
the line-offset index (`get_line_offsets`, `offset_at`, `position_at`), the
line aligner (`check_removed_lines`, `get_removed_lines`,
`create_remove_line_mapper`), the source-map bridge (`create_source_mapper`),
the processed-source producer (`remove_lines_from_source`), the diagnostics
interceptor (`wrapped_get_semantic_diagnostics` from `decorate_ts`) and the
orchestrator's result mapping (`map_info_to_result`).

Texts are `List Char` (JS strings as code-unit sequences); JS numbers that can
go negative are `Int`; JS `Map` objects are association lists with
last-write-wins lookup; the external source-map consumer and the external
language service are parameters (functions / `Option` values) at the
boundaries where the code consumes them.
-/

namespace SvelteTwoslash

/-- `{ line, character }` positions; both fields can be negative sentinels. -/
structure Pos where
  line : Int
  character : Int
deriving DecidableEq

/-- JS `clamp(num, min, max) = Math.max(min, Math.min(max, num))`. -/
def clamp (num lo hi : Int) : Int :=
  max lo (min hi num)

/-- JS `text.split(/\r\n?|\n/)`: split on `\r\n`, lone `\r`, or `\n`;
a trailing terminator yields a final empty piece, and `""` splits to `[""]`. -/
def split_lines : List Char → List (List Char)
  | [] => [[]]
  | '\r' :: '\n' :: rest => [] :: split_lines rest
  | '\r' :: rest => [] :: split_lines rest
  | '\n' :: rest => [] :: split_lines rest
  | c :: rest =>
    match split_lines rest with
    | [] => [[c]]
    | l :: ls => (c :: l) :: ls

/-- The scanning loop of `get_line_offsets`: `i` is the current absolute
offset, `s` the `is_line_start` flag.  At end of text the JS code pushes
`text.length` when `is_line_start && text.length > 0`; since the scan always
starts at offset 0, `i` equals the full text length there, so `0 < i` is
that condition. -/
def line_offsets_aux : Nat → Bool → List Char → List Nat
  | i, s, [] => if s ∧ 0 < i then [i] else []
  | i, s, '\r' :: '\n' :: rest => (if s then [i] else []) ++ line_offsets_aux (i + 2) true rest
  | i, s, '\r' :: rest => (if s then [i] else []) ++ line_offsets_aux (i + 1) true rest
  | i, s, c :: rest => (if s then [i] else []) ++ line_offsets_aux (i + 1) (c = '\n') rest

/-- `get_line_offsets(text)`: offset of the first character of each line. -/
def get_line_offsets (text : List Char) : List Nat :=
  line_offsets_aux 0 true text

/-- `offset_at(position, text, line_offsets)`: absolute offset of a position,
clamped to the line's extent; out-of-range lines map to `0` / `text.length`. -/
def offset_at (position : Pos) (text : List Char) : Int :=
  let line_offsets := get_line_offsets text
  if position.line ≥ (line_offsets.length : Int) then (text.length : Int)
  else if position.line < 0 then 0
  else
    let L := position.line.toNat
    let line_offset : Int := (line_offsets.getD L 0 : Nat)
    let next_line_offset : Int :=
      if L + 1 < line_offsets.length then (line_offsets.getD (L + 1) 0 : Nat)
      else (text.length : Int)
    clamp next_line_offset line_offset (line_offset + position.character)

/-- The `while (low <= high)` binary search of `position_at`.  The JS
variables `low` and `high` (with `high ≥ -1`) are represented as the natural
numbers `low` and `hi1 = high + 1`, so `low ≤ high` is `low < hi1` and
`mid = floor((low+high)/2)` is `(low + hi1 - 1) / 2`.  `fuel` bounds the
iteration count; `position_at` passes `table.length + 2`, which exceeds the
maximal number of iterations (the interval shrinks every step), so the
fuel-exhausted branch is never reached (see `pos_search_spec`).  In the
fall-through case the JS code reads `line_offsets[low - 1]`; for the tables
produced by `get_line_offsets` that index is always in range. -/
def pos_search (table : List Nat) (offset : Nat) : Nat → Nat → Nat → Pos
  | 0, low, _ =>
    ⟨(low : Int) - 1, (offset : Int) - (table.getD (low - 1) 0 : Nat)⟩
  | fuel + 1, low, hi1 =>
    if low < hi1 then
      match table.get? ((low + hi1 - 1) / 2) with
      | some line_offset =>
        if line_offset = offset then ⟨(((low + hi1 - 1) / 2 : Nat) : Int), 0⟩
        else if line_offset < offset then
          pos_search table offset fuel ((low + hi1 - 1) / 2 + 1) hi1
        else pos_search table offset fuel low ((low + hi1 - 1) / 2)
      | none => pos_search table offset fuel low ((low + hi1 - 1) / 2)
    else
      ⟨(low : Int) - 1, (offset : Int) - (table.getD (low - 1) 0 : Nat)⟩

/-- `position_at(offset, text, line_offsets)`: clamp the offset into
`[0, text.length]`, then binary-search the line-offset table. -/
def position_at (offset : Int) (text : List Char) : Pos :=
  let table := get_line_offsets text
  let off := (clamp offset 0 (text.length : Int)).toNat
  if table.length = 0 then ⟨0, (off : Int)⟩
  else pos_search table off (table.length + 2) 0 (table.length + 1)

/-- JS `Map.get`: the value of the most recent `set` for a key (the JS `Map`
constructor applied to an entry list keeps the last entry for a duplicated
key, which is the same lookup result). -/
def map_get : List (Nat × Nat) → Nat → Option Nat
  | [], _ => none
  | (k, v) :: rest, key =>
    match map_get rest key with
    | some v' => some v'
    | none => if key = k then some v else none

/-- JS `Map.get` keyed by a possibly negative `line` field: a negative key
never matches (all stored keys are array indices). -/
def map_get_int (m : List (Nat × Nat)) (line : Int) : Option Nat :=
  if 0 ≤ line then map_get m line.toNat else none

/-- `Array.prototype.indexOf(target, fromIndex)` walking from index `i`. -/
def index_of_aux (target : List Char) : List (List Char) → Nat → Int
  | [], _ => -1
  | l :: ls, i => if l = target then (i : Int) else index_of_aux target ls (i + 1)

/-- `svelte2tsx_lines.indexOf(twoslash_result_line, svelte2tsxIndex)`. -/
def index_of_from (lines : List (List Char)) (target : List Char) (start : Nat) : Int :=
  index_of_aux target (lines.drop start) start

/-- The alignment loop of `check_removed_lines`: walk the after-side lines
with running `index` and search cursor `svelte2tsxIndex`; on a miss the loop
breaks, on a hit it records `(index, correspond_index)` and sets the cursor
to `correspond_index`. -/
def crl_aux (before_lines : List (List Char)) :
    List (List Char) → Nat → Nat → List (Nat × Nat)
  | [], _, _ => []
  | l :: ls, index, cursor =>
    let ci := index_of_from before_lines l cursor
    if ci < 0 then []
    else (index, ci.toNat) :: crl_aux before_lines ls (index + 1) ci.toNat

/-- Result of `check_removed_lines`: the two direction maps plus the
before-side line list (captured by the `get_removed_lines` closure). -/
structure RemoveLineMap where
  generated_to_original : List (Nat × Nat)
  original_to_generated : List (Nat × Nat)
  svelte2tsx_lines : List (List Char)
deriving DecidableEq

/-- `check_removed_lines(svelte2tsx_code, two_slash_result)`. -/
def check_removed_lines (svelte2tsx_code two_slash_result : List Char) : RemoveLineMap :=
  let svelte2tsx_lines := split_lines svelte2tsx_code
  let two_slash_result_lines := split_lines two_slash_result
  let generated_to_original := crl_aux svelte2tsx_lines two_slash_result_lines 0 0
  { generated_to_original := generated_to_original
    original_to_generated := generated_to_original.map (fun p => (p.2, p.1))
    svelte2tsx_lines := svelte2tsx_lines }

/-- `get_removed_lines()`: every before-side index absent from
`original_to_generated`, in increasing order. -/
def get_removed_lines (m : RemoveLineMap) : List Nat :=
  (List.range m.svelte2tsx_lines.length).filter
    (fun index => (map_get m.original_to_generated index).isNone)

/-- `create_remove_line_mapper(...).map_to_generated_position`. -/
def rlm_map_to_generated_position (m : RemoveLineMap) (position : Pos) : Pos :=
  match map_get_int m.original_to_generated position.line with
  | some generated_line => ⟨(generated_line : Nat), position.character⟩
  | none => ⟨-1, position.character⟩

/-- `create_remove_line_mapper(...).map_to_original_position`. -/
def rlm_map_to_original_position (m : RemoveLineMap) (position : Pos) : Pos :=
  match map_get_int m.generated_to_original position.line with
  | some line => ⟨(line : Nat), position.character⟩
  | none => ⟨-1, position.character⟩

/-- `create_source_mapper(rawSourceMap)`.  The external
`SourceMapConsumer.originalPositionFor` is the parameter `consumer`, taking
the 1-based query line and the column and returning the (nullable) `line`
and `column` fields of its answer. -/
def create_source_mapper (consumer : Int → Int → Option Int × Option Int)
    (position : Pos) : Pos :=
  let one_based_position := consumer (position.line + 1) position.character
  ⟨one_based_position.1.getD 0 - 1, one_based_position.2.getD 0⟩

/-- The indexed filter of `remove_lines_from_source`:
`source_lines.filter((_, index) => !removed_lines.includes(index))`. -/
def filter_lines_aux (removed_lines : List Nat) :
    List (List Char) → Nat → List (List Char)
  | [], _ => []
  | l :: ls, index =>
    if removed_lines.contains index then filter_lines_aux removed_lines ls (index + 1)
    else l :: filter_lines_aux removed_lines ls (index + 1)

/-- `Array.prototype.join('\n')`. -/
def join_nl : List (List Char) → List Char
  | [] => []
  | [l] => l
  | l :: ls => l ++ '\n' :: join_nl ls

/-- `remove_lines_from_source(source, removed_lines)`. -/
def remove_lines_from_source (source : List Char) (removed_lines : List Nat) : List Char :=
  if removed_lines = [] then source
  else join_nl (filter_lines_aux removed_lines (split_lines source) 0)

/-- A twoslash result item (diagnostic or quick-info): the position fields the
pipeline rewrites, the `targetString` payload used by the quick-info filter,
and the `start` offset field that `map_two_slash_info` sets. -/
structure Info where
  line : Int
  character : Int
  targetString : List Char
  start : Int
deriving DecidableEq

/-- `map_two_slash_info(mapper, source, position, line_offsets)`: apply the
mapper to the item's position, overwrite `line`/`character` with the result
(the object spread keeps the other fields) and set `start` to the absolute
offset of the mapped position in `source`. -/
def map_two_slash_info (mapper : Pos → Pos) (source : List Char) (position : Info) : Info :=
  let original_position := mapper ⟨position.line, position.character⟩
  let offset := offset_at original_position source
  { position with
      line := original_position.line
      character := original_position.character
      start := offset }

/-- The orchestrator's `map_info_to_result` generator: for each item, map the
raw position through the remove-line alignment (generated→original), subtract
`prepend_lines`, map through the source-map bridge recomputing the offset in
`source`, then through the original→processed alignment recomputing the
offset in `processed`; yield the final item when the *raw* item has
`line > 0 && character > 0`. -/
def map_info_to_result (remove_line_map : RemoveLineMap) (prepend_lines : Nat)
    (map_to_original_position : Pos → Pos) (source : List Char)
    (source_remove_line_map : RemoveLineMap) (processed : List Char)
    (infoList : List Info) : List Info :=
  infoList.filterMap fun info =>
    let line_before_line_removed :=
      (rlm_map_to_original_position remove_line_map ⟨info.line, info.character⟩).line
    let line_without_prepend_lines := line_before_line_removed - (prepend_lines : Nat)
    let info_with_original_position :=
      map_two_slash_info map_to_original_position source
        { info with line := line_without_prepend_lines }
    let info_with_processed_position :=
      map_two_slash_info (rlm_map_to_generated_position source_remove_line_map) processed
        info_with_original_position
    if 0 < info.line ∧ 0 < info.character then some info_with_processed_position
    else none

/-- The `targetString` of the svelte2tsx rendering helper, excluded from the
returned quick infos. -/
def render_name : List Char := ['r', 'e', 'n', 'd', 'e', 'r']

/-- The orchestrator's `errors` result sequence. -/
def errors_result (remove_line_map : RemoveLineMap) (prepend_lines : Nat)
    (map_to_original_position : Pos → Pos) (source : List Char)
    (source_remove_line_map : RemoveLineMap) (processed : List Char)
    (errors : List Info) : List Info :=
  map_info_to_result remove_line_map prepend_lines map_to_original_position source
    source_remove_line_map processed errors

/-- The orchestrator's `staticQuickInfos` result sequence: the mapped items
additionally filtered by `info.targetString !== 'render'`. -/
def static_quick_infos_result (remove_line_map : RemoveLineMap) (prepend_lines : Nat)
    (map_to_original_position : Pos → Pos) (source : List Char)
    (source_remove_line_map : RemoveLineMap) (processed : List Char)
    (staticQuickInfos : List Info) : List Info :=
  (map_info_to_result remove_line_map prepend_lines map_to_original_position source
    source_remove_line_map processed staticQuickInfos).filter
    (fun info => info.targetString ≠ render_name)

/-- A raw semantic diagnostic: its `start` offset into the generated code and
an opaque payload distinguishing diagnostics. -/
structure Diag where
  start : Int
  payload : Nat
deriving DecidableEq

/-- The wrapped `getSemanticDiagnostics` installed by `decorate_ts`: `file`
is the checker's source-file object (`none` models `getSourceFile` returning
`undefined`, in which case the raw diagnostics pass through unchanged);
`map_to_original_position` is the source-map bridge. -/
def wrapped_get_semantic_diagnostics (generated : List Char)
    (file : Option (List Char)) (map_to_original_position : Pos → Pos)
    (errors : List Diag) : List Diag :=
  match file with
  | none => errors
  | some full_text =>
    let removed := check_removed_lines generated full_text
    errors.filter fun e =>
      let position := position_at e.start generated
      let original_position :=
        map_to_original_position (rlm_map_to_original_position removed position)
      decide (0 < original_position.line ∧ 0 ≤ original_position.character)

/-! ## Basic lemmas about the line splitter and the JS-Map model -/

/-- Every piece produced by `split_lines` is free of line-terminator
characters (the regex consumes them). -/
lemma split_lines_clean : ∀ (t : List Char), ∀ l ∈ split_lines t, ∀ c ∈ l, c ≠ '\r' ∧ c ≠ '\n' := by
  intro t
  induction t using split_lines.induct with
  | case1 => simp [split_lines]
  | case2 rest ih =>
    rw [split_lines.eq_2]
    intro l hl
    rcases List.mem_cons.mp hl with h' | h'
    · subst h'; simp
    · exact ih l h'
  | case3 rest h ih =>
    rw [split_lines.eq_3 rest h]
    intro l hl
    rcases List.mem_cons.mp hl with h' | h'
    · subst h'; simp
    · exact ih l h'
  | case4 rest ih =>
    rw [split_lines.eq_4]
    intro l hl
    rcases List.mem_cons.mp hl with h' | h'
    · subst h'; simp
    · exact ih l h'
  | case5 c rest h1 h2 h3 hnil ih =>
    rw [split_lines.eq_5 c rest h1 h2 h3, hnil]
    intro l hl
    rcases List.mem_cons.mp hl with h' | h'
    · subst h'
      intro d hd
      rcases List.mem_singleton.mp hd with rfl
      exact ⟨fun hc => h2 hc, fun hc => h3 hc⟩
    · simp at h'
  | case6 c rest h1 h2 h3 l0 ls0 heq ih =>
    rw [split_lines.eq_5 c rest h1 h2 h3, heq]
    intro l hl
    rcases List.mem_cons.mp hl with h' | h'
    · subst h'
      intro d hd
      rcases List.mem_cons.mp hd with rfl | hd'
      · exact ⟨fun hc => h2 hc, fun hc => h3 hc⟩
      · exact ih l0 (by rw [heq]; exact List.mem_cons_self _ _) d hd'
    · exact ih l (by rw [heq]; exact List.mem_cons_of_mem _ h')

/-- A terminator-free text splits into the single piece that is itself. -/
lemma split_lines_of_clean : ∀ (l : List Char), (∀ c ∈ l, c ≠ '\r' ∧ c ≠ '\n') →
    split_lines l = [l] := by
  intro l
  induction l with
  | nil => intro _; rfl
  | cons c rest ih =>
    intro h
    have hc := h c (List.mem_cons_self _ _)
    rw [split_lines.eq_5 c rest (fun _ hcr _ => hc.1 hcr) (fun hcr => hc.1 hcr)
      (fun hcn => hc.2 hcn)]
    rw [ih (fun d hd => h d (List.mem_cons_of_mem _ hd))]

/-- Splitting `l ++ '\n' ++ t` for terminator-free `l` peels off `l`. -/
lemma split_lines_append_nl : ∀ (l t : List Char), (∀ c ∈ l, c ≠ '\r' ∧ c ≠ '\n') →
    split_lines (l ++ '\n' :: t) = l :: split_lines t := by
  intro l t
  induction l with
  | nil => intro _; simpa using split_lines.eq_4 t
  | cons c rest ih =>
    intro h
    have hc := h c (List.mem_cons_self _ _)
    rw [List.cons_append,
      split_lines.eq_5 c (rest ++ '\n' :: t) (fun _ hcr _ => hc.1 hcr)
        (fun hcr => hc.1 hcr) (fun hcn => hc.2 hcn),
      ih (fun d hd => h d (List.mem_cons_of_mem _ hd))]

/-- `split_lines` is a left inverse of `join_nl` on nonempty lists of
terminator-free lines. -/
lemma split_join_nl : ∀ (ls : List (List Char)), ls ≠ [] →
    (∀ l ∈ ls, ∀ c ∈ l, c ≠ '\r' ∧ c ≠ '\n') →
    split_lines (join_nl ls) = ls := by
  intro ls
  induction ls with
  | nil => intro h; exact absurd rfl h
  | cons l ls ih =>
    intro _ hclean
    cases ls with
    | nil => simpa [join_nl] using split_lines_of_clean l (hclean l (by simp))
    | cons l2 ls2 =>
      rw [show join_nl (l :: l2 :: ls2) = l ++ '\n' :: join_nl (l2 :: ls2) from rfl]
      rw [split_lines_append_nl l _ (hclean l (by simp))]
      rw [ih (by simp) (fun m hm => hclean m (List.mem_cons_of_mem _ hm))]

/-- The indexed filter only returns lines of its input. -/
lemma filter_lines_aux_mem : ∀ (removed : List Nat) (ls : List (List Char)) (i : Nat)
    (l : List Char), l ∈ filter_lines_aux removed ls i → l ∈ ls := by
  intro removed ls
  induction ls with
  | nil => intro i l h; simp [filter_lines_aux] at h
  | cons m ms ih =>
    intro i l h
    rw [filter_lines_aux] at h
    by_cases hc : removed.contains i
    · rw [if_pos hc] at h
      exact List.mem_cons_of_mem _ (ih _ _ h)
    · rw [if_neg hc] at h
      rcases List.mem_cons.mp h with h' | h'
      · exact h' ▸ List.mem_cons_self _ _
      · exact List.mem_cons_of_mem _ (ih _ _ h')

/-- Filtering with an empty removed-index list keeps everything. -/
lemma filter_lines_aux_nil_removed : ∀ (ls : List (List Char)) (i : Nat),
    filter_lines_aux [] ls i = ls := by
  intro ls
  induction ls with
  | nil => intro i; rfl
  | cons l ls ih => intro i; simp [filter_lines_aux, ih]

/-- Joining terminator-free lines with `'\n'` produces no `'\r'`. -/
lemma join_nl_no_cr : ∀ (ls : List (List Char)),
    (∀ l ∈ ls, ∀ c ∈ l, c ≠ '\r') → '\r' ∉ join_nl ls := by
  intro ls
  induction ls using join_nl.induct with
  | case1 => simp [join_nl]
  | case2 l =>
    intro h hmem
    exact h l (by simp) '\r' hmem rfl
  | case3 l ls hne ih =>
    intro h hmem
    cases ls with
    | nil => exact hne rfl
    | cons l2 ls2 =>
      rw [show join_nl (l :: l2 :: ls2) = l ++ '\n' :: join_nl (l2 :: ls2) from rfl] at hmem
      rcases List.mem_append.mp hmem with h' | h'
      · exact h l (by simp) '\r' h' rfl
      · rcases List.mem_cons.mp h' with h'' | h''
        · exact absurd h''.symm (by decide)
        · exact ih (fun m hm => h m (List.mem_cons_of_mem _ hm)) h''

/-- `map_get` only returns stored entries. -/
lemma map_get_mem : ∀ (m : List (Nat × Nat)) (k v : Nat), map_get m k = some v → (k, v) ∈ m := by
  intro m
  induction m with
  | nil => intro k v h; simp [map_get] at h
  | cons p rest ih =>
    intro k v h
    rw [show map_get (p :: rest) k = (match map_get rest k with
        | some v' => some v'
        | none => if k = p.1 then some p.2 else none) from rfl] at h
    cases hrest : map_get rest k with
    | some w =>
      rw [hrest] at h
      cases h
      exact List.mem_cons_of_mem _ (ih _ _ hrest)
    | none =>
      rw [hrest] at h
      by_cases hk : k = p.1
      · rw [if_pos hk] at h
        cases h
        rw [hk]
        exact List.mem_cons_self _ _
      · rw [if_neg hk] at h
        cases h

/-! ## C9: the remove-line mapper leaves `character` untouched -/

/-- C9: both directions of `create_remove_line_mapper` copy the input
`character` unchanged, whether or not the line lookup succeeds. -/
theorem remove_line_mapper_preserves_character (m : RemoveLineMap) (p : Pos) :
    (rlm_map_to_generated_position m p).character = p.character
    ∧ (rlm_map_to_original_position m p).character = p.character := by
  constructor
  · rw [rlm_map_to_generated_position]
    cases map_get_int m.original_to_generated p.line <;> rfl
  · rw [rlm_map_to_original_position]
    cases map_get_int m.generated_to_original p.line <;> rfl

/-! ## C6: the source-map bridge sentinel -/

/-- C6: when the wrapped consumer has no entry for the queried position
(returning null line and column), `create_source_mapper` returns the
sentinel `{ line := -1, character := 0 }`. -/
theorem source_mapper_sentinel (consumer : Int → Int → Option Int × Option Int) (p : Pos)
    (h : consumer (p.line + 1) p.character = (none, none)) :
    create_source_mapper consumer p = ⟨-1, 0⟩ := by
  simp [create_source_mapper, h]

/-- Witness for C6 at a concrete consumer and position. -/
theorem source_mapper_sentinel_witness :
    create_source_mapper (fun _ _ => (none, none)) ⟨5, 7⟩ = ⟨-1, 0⟩ :=
  source_mapper_sentinel (fun _ _ => (none, none)) ⟨5, 7⟩ rfl

/-! ## C10: verbatim on empty removal, newline-normalized otherwise -/

/-- C10: `remove_lines_from_source` returns the source verbatim (original
terminators included) when no lines are removed, and otherwise produces a
text whose only terminator character is `'\n'` (no `'\r'` anywhere). -/
theorem remove_lines_from_source_terminators (source : List Char) (removed_lines : List Nat) :
    (removed_lines = [] → remove_lines_from_source source removed_lines = source)
    ∧ (removed_lines ≠ [] → '\r' ∉ remove_lines_from_source source removed_lines) := by
  constructor
  · intro h
    simp [remove_lines_from_source, h]
  · intro h
    rw [remove_lines_from_source, if_neg h]
    exact join_nl_no_cr _ (fun l hl c hc =>
      (split_lines_clean source l (filter_lines_aux_mem _ _ _ _ hl) c hc).1)

/-- Witness for C10 on a CRLF source, for both the empty and the nonempty
removal list. -/
theorem remove_lines_from_source_terminators_witness :
    remove_lines_from_source ['a', '\r', '\n', 'b'] [] = ['a', '\r', '\n', 'b']
    ∧ '\r' ∉ remove_lines_from_source ['a', '\r', '\n', 'b'] [0] :=
  ⟨(remove_lines_from_source_terminators ['a', '\r', '\n', 'b'] []).1 rfl,
   (remove_lines_from_source_terminators ['a', '\r', '\n', 'b'] [0]).2 (by decide)⟩

/-! ## C7: the processed source is the original minus the removed lines -/

/-- C7: line for line, the processed output of `remove_lines_from_source` is
the source's line sequence with exactly the lines at the removed indices
deleted and all other lines kept in order (stated for the non-degenerate
case where at least one line survives: deleting every line yields the empty
string, which splits to one empty line). -/
theorem remove_lines_from_source_deletes (source : List Char) (removed_lines : List Nat)
    (h : filter_lines_aux removed_lines (split_lines source) 0 ≠ []) :
    split_lines (remove_lines_from_source source removed_lines)
      = filter_lines_aux removed_lines (split_lines source) 0 := by
  by_cases hr : removed_lines = []
  · subst hr
    simp [remove_lines_from_source, filter_lines_aux_nil_removed]
  · rw [remove_lines_from_source, if_neg hr]
    exact split_join_nl _ h (fun l hl c hc =>
      split_lines_clean source l (filter_lines_aux_mem _ _ _ _ hl) c hc)

/-- Witness for C7: removing lines `{1, 4}` from a five-line document keeps
lines 0, 2, 3 in order. -/
theorem remove_lines_from_source_deletes_witness :
    filter_lines_aux [1, 4] (split_lines ['a', '\n', 'b', '\n', 'c', '\n', 'd', '\n', 'e']) 0 ≠ []
    ∧ split_lines (remove_lines_from_source ['a', '\n', 'b', '\n', 'c', '\n', 'd', '\n', 'e'] [1, 4])
      = filter_lines_aux [1, 4] (split_lines ['a', '\n', 'b', '\n', 'c', '\n', 'd', '\n', 'e']) 0 :=
  ⟨by decide, remove_lines_from_source_deletes ['a', '\n', 'b', '\n', 'c', '\n', 'd', '\n', 'e']
    [1, 4] (by decide)⟩

/-! ## C5: the diagnostics interceptor filter -/

/-- C5: when the checker's view of the file is available, the wrapped
`getSemanticDiagnostics` returns exactly the raw diagnostics, in order,
whose start offset — read as a position in the generated code, mapped
through the generated-to-original direction of the alignment between the
generated code and the checker's view, then through the source-map bridge —
lands on an original position with `line > 0` and `character ≥ 0`. -/
theorem semantic_diagnostics_filter (generated view : List Char)
    (map_to_original_position : Pos → Pos) (errors : List Diag) :
    wrapped_get_semantic_diagnostics generated (some view) map_to_original_position errors
      = errors.filter (fun e =>
          let position := position_at e.start generated
          let original_position :=
            map_to_original_position
              (rlm_map_to_original_position (check_removed_lines generated view) position)
          decide (0 < original_position.line ∧ 0 ≤ original_position.character)) := rfl

/-! ## C2 (counterexample): self-alignment is not always the identity -/

/-- C2 counterexample: for the text `"a\na"` (two identical lines) the
search cursor is advanced only to the matched index, so the second line
re-matches the first; `removedLines` is not empty and the
generated-to-original map sends line 1 to line 0. -/
theorem alignment_self_not_identity :
    get_removed_lines (check_removed_lines ['a', '\n', 'a'] ['a', '\n', 'a']) ≠ []
    ∧ map_get (check_removed_lines ['a', '\n', 'a'] ['a', '\n', 'a']).generated_to_original 1
      = some 0 := by
  decide

/-! ## C3 (counterexample): the alignment map is not strictly increasing -/

/-- C3 counterexample: aligning `"a\na"` with itself maps after-lines 0 and
1 to the same before-line 0, refuting strict monotonicity. -/
theorem alignment_not_strict_mono :
    ¬ (∀ i1 i2 j1 j2 : Nat, i1 < i2 →
        map_get (check_removed_lines ['a', '\n', 'a'] ['a', '\n', 'a']).generated_to_original i1
          = some j1 →
        map_get (check_removed_lines ['a', '\n', 'a'] ['a', '\n', 'a']).generated_to_original i2
          = some j2 →
        j1 < j2) := by
  intro h
  exact absurd (h 0 1 0 0 (by decide) (by decide) (by decide)) (by decide)

/-! ## C1: what the orchestrator's result mapping actually filters on -/

/-- `filterMap` with a guarded function is a filter followed by a map. -/
lemma filterMap_guard {α β : Type} (p : α → Prop) [DecidablePred p] (f : α → β)
    (l : List α) :
    l.filterMap (fun a => if p a then some (f a) else none)
      = (l.filter (fun a => decide (p a))).map f := by
  induction l with
  | nil => rfl
  | cons a l ih => by_cases h : p a <;> simp [h, ih]

/-- C1 (amended): `map_info_to_result` maps each item through the
remove-line alignment (generated→original) *first*, then subtracts the
prepended line count, then the source-map bridge with the offset recomputed
in the original source, then the original→processed alignment with the
offset recomputed in the processed source; and an item survives exactly when
its *raw* engine-reported position has `line > 0` and `character > 0`
(`staticQuickInfos` additionally excludes items whose `targetString` is the
rendering helper's name), the final mapped position playing no part in the
filter. -/
theorem map_info_to_result_raw_filter (remove_line_map : RemoveLineMap) (prepend_lines : Nat)
    (map_to_original_position : Pos → Pos) (source : List Char)
    (source_remove_line_map : RemoveLineMap) (processed : List Char)
    (errors staticQuickInfos : List Info) :
    errors_result remove_line_map prepend_lines map_to_original_position source
        source_remove_line_map processed errors
      = (errors.filter (fun info => decide (0 < info.line ∧ 0 < info.character))).map
          (fun info =>
            map_two_slash_info (rlm_map_to_generated_position source_remove_line_map) processed
              (map_two_slash_info map_to_original_position source
                { info with line :=
                    (rlm_map_to_original_position remove_line_map
                      ⟨info.line, info.character⟩).line - (prepend_lines : Nat) }))
    ∧ static_quick_infos_result remove_line_map prepend_lines map_to_original_position source
        source_remove_line_map processed staticQuickInfos
      = (((staticQuickInfos.filter
            (fun info => decide (0 < info.line ∧ 0 < info.character))).map
          (fun info =>
            map_two_slash_info (rlm_map_to_generated_position source_remove_line_map) processed
              (map_two_slash_info map_to_original_position source
                { info with line :=
                    (rlm_map_to_original_position remove_line_map
                      ⟨info.line, info.character⟩).line - (prepend_lines : Nat) }))).filter
          (fun info => info.targetString ≠ render_name)) := by
  constructor
  · rw [errors_result, map_info_to_result]
    exact filterMap_guard _ _ _
  · rw [static_quick_infos_result, map_info_to_result]
    rw [filterMap_guard (fun info : Info => 0 < info.line ∧ 0 < info.character)]

/-- C1 counterexample: an item whose raw position is `(1, 1)` is emitted by
`map_info_to_result` even though its fully mapped original-document position
(alignment miss `→ -1`, minus the 3 prepended lines, identity bridge) has
`line = -4 ≤ 0`; so membership is not governed by the final mapped
position. -/
theorem orchestrator_filters_on_raw_position :
    (errors_result (check_removed_lines ['a'] ['a', '\n', 'b']) 3 (fun p => p) ['s']
        (check_removed_lines ['s'] ['s']) ['s']
        [{ line := 1, character := 1, targetString := [], start := 0 }]).length = 1
    ∧ (map_two_slash_info (fun p => p) ['s']
        { line := (rlm_map_to_original_position (check_removed_lines ['a'] ['a', '\n', 'b'])
            ⟨1, 1⟩).line - 3,
          character := 1, targetString := [], start := 0 }).line ≤ 0 := by
  decide

/-! ## C3 (amended): the alignment map is non-decreasing -/

/-- A successful `indexOf(target, from)` returns an index at or after
`from`. -/
lemma index_of_aux_lb : ∀ (target : List Char) (ls : List (List Char)) (i : Nat),
    ¬ index_of_aux target ls i < 0 → (i : Int) ≤ index_of_aux target ls i := by
  intro target ls
  induction ls with
  | nil => intro i h; simp [index_of_aux] at h
  | cons l ls ih =>
    intro i h
    rw [index_of_aux] at h ⊢
    by_cases hl : l = target
    · simp [hl]
    · rw [if_neg hl] at h ⊢
      calc (i : Int) ≤ ((i + 1 : Nat) : Int) := by push_cast; omega
        _ ≤ _ := ih (i + 1) h

/-- Every entry recorded by the alignment loop has its after-index at or
beyond the loop's starting index and its before-index at or beyond the
cursor. -/
lemma crl_aux_bounds : ∀ (bl al : List (List Char)) (idx cursor g o : Nat),
    (g, o) ∈ crl_aux bl al idx cursor → idx ≤ g ∧ cursor ≤ o := by
  intro bl al
  induction al with
  | nil => intro idx cursor g o h; simp [crl_aux] at h
  | cons l ls ih =>
    intro idx cursor g o h
    simp only [crl_aux] at h
    by_cases hci : index_of_from bl l cursor < 0
    · simp [hci] at h
    · rw [if_neg hci] at h
      have hcur : cursor ≤ (index_of_from bl l cursor).toNat := by
        have := index_of_aux_lb l (bl.drop cursor) cursor hci
        rw [index_of_from] at hci ⊢
        omega
      rcases List.mem_cons.mp h with h' | h'
      · rw [Prod.mk.injEq] at h'
        exact ⟨le_of_eq h'.1.symm, h'.2 ▸ hcur⟩
      · have := ih (idx + 1) (index_of_from bl l cursor).toNat g o h'
        exact ⟨by omega, by omega⟩

/-- Entries of the alignment loop are non-decreasing in the before-index as
the after-index grows. -/
lemma crl_aux_mono : ∀ (bl al : List (List Char)) (idx cursor g1 o1 g2 o2 : Nat),
    (g1, o1) ∈ crl_aux bl al idx cursor → (g2, o2) ∈ crl_aux bl al idx cursor →
    g1 < g2 → o1 ≤ o2 := by
  intro bl al
  induction al with
  | nil => intro idx cursor g1 o1 g2 o2 h1 _ _; simp [crl_aux] at h1
  | cons l ls ih =>
    intro idx cursor g1 o1 g2 o2 h1 h2 hlt
    simp only [crl_aux] at h1 h2
    by_cases hci : index_of_from bl l cursor < 0
    · simp [hci] at h1
    · rw [if_neg hci] at h1 h2
      rcases List.mem_cons.mp h1 with e1 | m1
      · rw [Prod.mk.injEq] at e1
        rcases List.mem_cons.mp h2 with e2 | m2
        · rw [Prod.mk.injEq] at e2
          omega
        · have := (crl_aux_bounds bl ls (idx + 1) (index_of_from bl l cursor).toNat g2 o2 m2).2
          omega
      · rcases List.mem_cons.mp h2 with e2 | m2
        · rw [Prod.mk.injEq] at e2
          have := (crl_aux_bounds bl ls (idx + 1) (index_of_from bl l cursor).toNat g1 o1 m1).1
          omega
        · exact ih _ _ _ _ _ _ m1 m2 hlt

/-- C3 (amended): for any two after-side lines both mapped by
`check_removed_lines`, a larger after-index maps to a before-index at least
as large — the map is non-decreasing, but not strictly increasing, because
the cursor is advanced only *to* the matched index, letting consecutive
identical lines re-match it. -/
theorem generated_to_original_monotone (before after : List Char) (i1 i2 j1 j2 : Nat)
    (h12 : i1 < i2)
    (h1 : map_get (check_removed_lines before after).generated_to_original i1 = some j1)
    (h2 : map_get (check_removed_lines before after).generated_to_original i2 = some j2) :
    j1 ≤ j2 :=
  crl_aux_mono (split_lines before) (split_lines after) 0 0 i1 j1 i2 j2
    (map_get_mem _ _ _ h1) (map_get_mem _ _ _ h2) h12

/-- Witness for (amended) C3 on a two-line text aligned with itself. -/
theorem generated_to_original_monotone_witness :
    map_get (check_removed_lines ['a', '\n', 'b'] ['a', '\n', 'b']).generated_to_original 0
      = some 0
    ∧ map_get (check_removed_lines ['a', '\n', 'b'] ['a', '\n', 'b']).generated_to_original 1
      = some 1
    ∧ (0 : Nat) ≤ 1 :=
  ⟨by decide, by decide,
    generated_to_original_monotone ['a', '\n', 'b'] ['a', '\n', 'b'] 0 1 0 1 (by decide)
      (by decide) (by decide)⟩

/-! ## C2 (amended): self-alignment is the identity when no two consecutive
lines are equal -/

/-- One alignment step on a text aligned with itself: with cursor `c` and
target line `c+1`, the first match at or after `c` is `c+1` itself when
lines `c` and `c+1` differ. -/
lemma index_of_from_self_step (bl : List (List Char)) (c : Nat) (h1 : c + 1 < bl.length)
    (hne : bl.getD c [] ≠ bl.getD (c + 1) []) :
    index_of_from bl (bl.getD (c + 1) []) c = ((c + 1 : Nat) : Int) := by
  rw [List.getD_eq_getElem _ _ (show c < bl.length by omega),
    List.getD_eq_getElem _ _ h1] at hne
  rw [List.getD_eq_getElem _ _ h1]
  rw [index_of_from, List.drop_eq_getElem_cons (show c < bl.length by omega),
    List.drop_eq_getElem_cons h1, index_of_aux, if_neg hne, index_of_aux, if_pos rfl]

/-- Aligning a text with itself, the loop on the suffix starting at line
`c+1` with cursor `c` maps every remaining line to itself. -/
lemma crl_aux_self_suffix (bl : List (List Char))
    (hd : ∀ i < bl.length - 1, bl.getD i [] ≠ bl.getD (i + 1) []) :
    ∀ (n c : Nat), bl.length - (c + 1) = n →
      crl_aux bl (bl.drop (c + 1)) (c + 1) c
        = (List.range' (c + 1) (bl.length - (c + 1))).map (fun i => (i, i)) := by
  intro n
  induction n with
  | zero =>
    intro c hc
    rw [List.drop_eq_nil_of_le (by omega), hc]
    rfl
  | succ n ih =>
    intro c hc
    have hlt : c + 1 < bl.length := by omega
    rw [List.drop_eq_getElem_cons hlt]
    simp only [crl_aux]
    rw [show bl[c + 1] = bl.getD (c + 1) [] from (List.getD_eq_getElem _ _ hlt).symm]
    rw [index_of_from_self_step bl c hlt (hd c (by omega))]
    rw [if_neg (by omega : ¬ ((c + 1 : Nat) : Int) < 0)]
    rw [show (((c + 1 : Nat) : Int)).toNat = c + 1 from rfl]
    rw [show bl.drop (c + 1 + 1) = bl.drop (c + 2) from rfl]
    rw [ih (c + 1) (by omega)]
    rw [hc, List.range'_succ]
    rw [show bl.length - (c + 2) = n from by omega]
    rfl

/-- Aligning any text with itself maps line `i` to line `i` for every line,
provided no two consecutive lines are equal. -/
lemma crl_aux_self (bl : List (List Char))
    (hd : ∀ i < bl.length - 1, bl.getD i [] ≠ bl.getD (i + 1) []) :
    crl_aux bl bl 0 0 = (List.range' 0 bl.length).map (fun i => (i, i)) := by
  cases bl with
  | nil => rfl
  | cons b0 rest =>
    have h0 : index_of_from (b0 :: rest) b0 0 = (0 : Int) := by
      rw [index_of_from, List.drop_zero, index_of_aux, if_pos rfl]
      rfl
    have step : crl_aux (b0 :: rest) (b0 :: rest) 0 0
        = (0, 0) :: crl_aux (b0 :: rest) rest 1 0 := by
      simp only [crl_aux, h0]
      norm_num
    rw [step]
    have hsuf := crl_aux_self_suffix (b0 :: rest) hd ((b0 :: rest).length - 1) 0 (by simp)
    rw [show (b0 :: rest).drop 1 = rest from rfl] at hsuf
    rw [hsuf]
    rw [show (b0 :: rest).length = rest.length + 1 from rfl, List.range'_succ]
    simp

/-- Lookup in the diagonal association list built over `range'`. -/
lemma map_get_diag : ∀ (n s k : Nat),
    map_get ((List.range' s n).map (fun i => (i, i))) k
      = if s ≤ k ∧ k < s + n then some k else none := by
  intro n
  induction n with
  | zero =>
    intro s k
    rw [if_neg (by omega)]
    rfl
  | succ n ih =>
    intro s k
    rw [List.range'_succ, List.map_cons]
    have hm : map_get ((s, s) :: (List.range' (s + 1) n).map (fun i => (i, i))) k
        = (match map_get ((List.range' (s + 1) n).map (fun i => (i, i))) k with
           | some v' => some v'
           | none => if k = s then some s else none) := rfl
    rw [hm, ih (s + 1) k]
    by_cases h : s + 1 ≤ k ∧ k < s + 1 + n
    · rw [if_pos h]
      rw [show (match some k with
           | some v' => some v'
           | (none : Option Nat) => if k = s then some s else none) = some k from rfl]
      rw [if_pos (show s ≤ k ∧ k < s + (n + 1) by omega)]
    · rw [if_neg h]
      rw [show (match (none : Option Nat) with
           | some v' => some v'
           | none => if k = s then some s else none)
         = (if k = s then some s else none) from rfl]
      by_cases hk : k = s
      · rw [if_pos hk, if_pos (show s ≤ k ∧ k < s + (n + 1) by omega), hk]
      · rw [if_neg hk, if_neg (show ¬ (s ≤ k ∧ k < s + (n + 1)) by omega)]

/-- C2 (amended): for every text in which no two consecutive lines are
equal, aligning the text with itself yields no removed lines and both
direction maps are the identity on `[0, lineCount)`.  (Without the
consecutive-distinctness condition the property fails, see the
counterexample on `"a\na"`.) -/
theorem check_removed_lines_self_identity (t : List Char)
    (hd : ∀ i < (split_lines t).length - 1,
      (split_lines t).getD i [] ≠ (split_lines t).getD (i + 1) []) :
    get_removed_lines (check_removed_lines t t) = []
    ∧ ∀ i < (split_lines t).length,
        map_get (check_removed_lines t t).generated_to_original i = some i
        ∧ map_get (check_removed_lines t t).original_to_generated i = some i := by
  have hg : (check_removed_lines t t).generated_to_original
      = (List.range' 0 (split_lines t).length).map (fun i => (i, i)) :=
    crl_aux_self (split_lines t) hd
  have ho : (check_removed_lines t t).original_to_generated
      = (List.range' 0 (split_lines t).length).map (fun i => (i, i)) := by
    show (crl_aux (split_lines t) (split_lines t) 0 0).map (fun p => (p.2, p.1)) = _
    rw [crl_aux_self (split_lines t) hd, List.map_map]
    rfl
  constructor
  · rw [get_removed_lines, ho]
    rw [List.filter_eq_nil_iff]
    intro a ha
    rw [map_get_diag (split_lines t).length 0 a,
      if_pos ⟨by omega, by simpa using List.mem_range.mp ha⟩]
    simp
  · intro i hi
    constructor
    · rw [hg, map_get_diag, if_pos ⟨by omega, by omega⟩]
    · rw [ho, map_get_diag, if_pos ⟨by omega, by omega⟩]

/-- Witness for (amended) C2 on the two-line text `"a\nb"`. -/
theorem check_removed_lines_self_identity_witness :
    get_removed_lines (check_removed_lines ['a', '\n', 'b'] ['a', '\n', 'b']) = []
    ∧ map_get (check_removed_lines ['a', '\n', 'b'] ['a', '\n', 'b']).generated_to_original 1
      = some 1
    ∧ map_get (check_removed_lines ['a', '\n', 'b'] ['a', '\n', 'b']).original_to_generated 0
      = some 0 :=
  ⟨(check_removed_lines_self_identity ['a', '\n', 'b'] (by decide)).1,
   ((check_removed_lines_self_identity ['a', '\n', 'b'] (by decide)).2 1 (by decide)).1,
   ((check_removed_lines_self_identity ['a', '\n', 'b'] (by decide)).2 0 (by decide)).2⟩

/-! ## The line-offset table: bounds, sortedness, head -/

/-- Membership in the conditional singleton prefix of the scan. -/
lemma mem_pre {x i : Nat} {s : Bool} (h : x ∈ (if s = true then [i] else [])) : x = i := by
  cases s
  · simp at h
  · simpa using h

/-- Every offset recorded by the scan lies in the scanned interval. -/
lemma line_offsets_aux_bounds : ∀ (i : Nat) (s : Bool) (l : List Char),
    ∀ x ∈ line_offsets_aux i s l, i ≤ x ∧ x ≤ i + l.length := by
  intro i s l
  induction i, s, l using line_offsets_aux.induct with
  | case1 i s h =>
    rw [line_offsets_aux.eq_1, if_pos h]
    intro x hx
    rcases List.mem_singleton.mp hx with rfl
    simp
  | case2 i s h =>
    rw [line_offsets_aux.eq_1, if_neg h]
    intro x hx
    simp at hx
  | case3 i s rest ih =>
    rw [line_offsets_aux.eq_2]
    intro x hx
    rcases List.mem_append.mp hx with h' | h'
    · rcases mem_pre h' with rfl
      simp
    · have := ih x h'
      simp only [List.length_cons]
      omega
  | case4 i s rest hr ih =>
    rw [line_offsets_aux.eq_3 _ _ _ hr]
    intro x hx
    rcases List.mem_append.mp hx with h' | h'
    · rcases mem_pre h' with rfl
      simp
    · have := ih x h'
      simp only [List.length_cons]
      omega
  | case5 i s c rest h1 h2 ih =>
    rw [line_offsets_aux.eq_4 _ _ _ _ h1 h2]
    intro x hx
    rcases List.mem_append.mp hx with h' | h'
    · rcases mem_pre h' with rfl
      simp
    · have := ih x h'
      simp only [List.length_cons]
      omega

/-- The scan's offsets are strictly increasing. -/
lemma line_offsets_aux_sorted : ∀ (i : Nat) (s : Bool) (l : List Char),
    List.Pairwise (· < ·) (line_offsets_aux i s l) := by
  intro i s l
  induction i, s, l using line_offsets_aux.induct with
  | case1 i s h =>
    rw [line_offsets_aux.eq_1, if_pos h]
    exact List.pairwise_singleton _ _
  | case2 i s h =>
    rw [line_offsets_aux.eq_1, if_neg h]
    exact List.Pairwise.nil
  | case3 i s rest ih =>
    rw [line_offsets_aux.eq_2]
    cases s
    · simpa using ih
    · simp only [if_pos rfl, List.singleton_append]
      exact List.pairwise_cons.mpr
        ⟨fun y hy => by have := (line_offsets_aux_bounds _ _ _ y hy).1; omega, ih⟩
  | case4 i s rest hr ih =>
    rw [line_offsets_aux.eq_3 _ _ _ hr]
    cases s
    · simpa using ih
    · simp only [if_pos rfl, List.singleton_append]
      exact List.pairwise_cons.mpr
        ⟨fun y hy => by have := (line_offsets_aux_bounds _ _ _ y hy).1; omega, ih⟩
  | case5 i s c rest h1 h2 ih =>
    rw [line_offsets_aux.eq_4 _ _ _ _ h1 h2]
    cases s
    · simpa using ih
    · simp only [if_pos rfl, List.singleton_append]
      exact List.pairwise_cons.mpr
        ⟨fun y hy => by have := (line_offsets_aux_bounds _ _ _ y hy).1; omega, ih⟩

/-- A scan that starts at a line start on a nonempty text records its start
offset first. -/
lemma line_offsets_aux_head : ∀ (i : Nat) (l : List Char), l ≠ [] →
    ∃ r, line_offsets_aux i true l = i :: r := by
  intro i l h
  cases l with
  | nil => exact absurd rfl h
  | cons c rest =>
    by_cases hc : c = '\r'
    · subst hc
      cases rest with
      | nil =>
        rw [line_offsets_aux.eq_3 _ _ _ (fun r hr => by cases hr)]
        exact ⟨_, rfl⟩
      | cons c2 rest2 =>
        by_cases hc2 : c2 = '\n'
        · subst hc2
          rw [line_offsets_aux.eq_2]
          exact ⟨_, rfl⟩
        · rw [line_offsets_aux.eq_3 _ _ _
            (fun r1 hr => hc2 (by rw [List.cons.injEq] at hr; exact hr.1))]
          exact ⟨_, rfl⟩
    · rw [line_offsets_aux.eq_4 _ _ _ _ (fun _ hce _ => hc hce) (fun hce => hc hce)]
      exact ⟨_, rfl⟩

/-- The table of a nonempty text starts with offset 0. -/
lemma get_line_offsets_head {text : List Char} (h : text ≠ []) :
    ∃ r, get_line_offsets text = 0 :: r :=
  line_offsets_aux_head 0 text h

/-- The table is empty exactly for the empty text. -/
lemma get_line_offsets_nil : get_line_offsets ([] : List Char) = [] := rfl

/-- The table is strictly increasing. -/
lemma get_line_offsets_sorted (text : List Char) :
    List.Pairwise (· < ·) (get_line_offsets text) :=
  line_offsets_aux_sorted 0 true text

/-- Every table entry is at most the text length. -/
lemma get_line_offsets_le (text : List Char) :
    ∀ x ∈ get_line_offsets text, x ≤ text.length := by
  intro x hx
  have := (line_offsets_aux_bounds 0 true text x hx).2
  omega

/-- In-range `getD` is a member. -/
lemma getD_mem (l : List Nat) {k : Nat} (h : k < l.length) : l.getD k 0 ∈ l := by
  rw [List.getD_eq_getElem _ _ h]
  exact List.getElem_mem h

/-- Monotone access into a strictly sorted table. -/
lemma table_getD_mono (table : List Nat) (hs : List.Pairwise (· < ·) table)
    {j k : Nat} (hjk : j ≤ k) (hk : k < table.length) :
    table.getD j 0 ≤ table.getD k 0 := by
  rcases Nat.eq_or_lt_of_le hjk with rfl | hlt
  · exact le_refl _
  · have hj : j < table.length := by omega
    have := List.pairwise_iff_get.mp hs ⟨j, hj⟩ ⟨k, hk⟩ hlt
    rw [List.getD_eq_getElem _ _ hj, List.getD_eq_getElem _ _ hk]
    simpa using le_of_lt this

/-- Strictly monotone access into a strictly sorted table. -/
lemma table_getD_strict (table : List Nat) (hs : List.Pairwise (· < ·) table)
    {j k : Nat} (hjk : j < k) (hk : k < table.length) :
    table.getD j 0 < table.getD k 0 := by
  have hj : j < table.length := by omega
  have := List.pairwise_iff_get.mp hs ⟨j, hj⟩ ⟨k, hk⟩ hjk
  rw [List.getD_eq_getElem _ _ hj, List.getD_eq_getElem _ _ hk]
  simpa using this

/-! ## Correctness of the `position_at` binary search -/

/-- Invariant-based specification of the search loop: with everything left
of `low` at or below `offset` and everything from `hi1` on above `offset`
(and enough fuel for the remaining interval), the search lands on the line
`L` whose start is at or before `offset` and whose successor line (if any)
starts after it; the returned character is the remainder. -/
lemma pos_search_spec (table : List Nat) (offset : Nat)
    (hs : List.Pairwise (· < ·) table) (hlen : 0 < table.length)
    (hhead : table.getD 0 0 = 0) :
    ∀ (fuel low hi1 : Nat), hi1 - low < fuel →
      low ≤ table.length → hi1 ≤ table.length + 1 →
      (∀ k, k < low → table.getD k 0 ≤ offset) →
      (∀ k, hi1 ≤ k → k < table.length → offset < table.getD k 0) →
      ∃ L : Nat, pos_search table offset fuel low hi1
          = ⟨(L : Int), (offset : Int) - ((table.getD L 0 : Nat) : Int)⟩
        ∧ L < table.length ∧ table.getD L 0 ≤ offset
        ∧ (L + 1 < table.length → offset < table.getD (L + 1) 0) := by
  intro fuel
  induction fuel with
  | zero => intro low hi1 hfuel _ _ _ _; omega
  | succ fuel ih =>
    intro low hi1 hfuel hlow hhi1 hinv1 hinv2
    rw [pos_search]
    by_cases hcmp : low < hi1
    · rw [if_pos hcmp]
      have hmid_lb : low ≤ (low + hi1 - 1) / 2 := by omega
      have hmid_ub : (low + hi1 - 1) / 2 < hi1 := by omega
      cases hget : table.get? ((low + hi1 - 1) / 2) with
      | some lo =>
        have hmidlen : (low + hi1 - 1) / 2 < table.length := by
          by_contra hcon
          rw [List.get?_eq_none.mpr (by omega)] at hget
          cases hget
        have hgetD : table.getD ((low + hi1 - 1) / 2) 0 = lo := by
          have h1 := List.get?_eq_getElem? table ((low + hi1 - 1) / 2)
          rw [hget, List.getElem?_eq_getElem hmidlen] at h1
          rw [List.getD_eq_getElem _ _ hmidlen]
          exact (Option.some.inj h1).symm
        simp only []
        by_cases heq : lo = offset
        · rw [if_pos heq]
          refine ⟨(low + hi1 - 1) / 2, ?_, hmidlen, by omega, fun h1 => ?_⟩
          · rw [hgetD, heq]
            simp
          · have := table_getD_strict table hs
              (show (low + hi1 - 1) / 2 < (low + hi1 - 1) / 2 + 1 by omega) h1
            omega
        · rw [if_neg heq]
          by_cases hlt : lo < offset
          · rw [if_pos hlt]
            apply ih ((low + hi1 - 1) / 2 + 1) hi1 (by omega) (by omega) hhi1
            · intro k hk
              have := table_getD_mono table hs (show k ≤ (low + hi1 - 1) / 2 by omega) hmidlen
              omega
            · exact hinv2
          · rw [if_neg hlt]
            apply ih low ((low + hi1 - 1) / 2) (by omega) hlow (by omega) hinv1
            intro k hk1 hk2
            have := table_getD_mono table hs hk1 hk2
            omega
      | none =>
        have hmidlen : table.length ≤ (low + hi1 - 1) / 2 := by
          by_contra hcon
          rw [List.get?_eq_get (show (low + hi1 - 1) / 2 < table.length by omega)] at hget
          cases hget
        simp only []
        apply ih low ((low + hi1 - 1) / 2) (by omega) hlow (by omega) hinv1
        intro k hk1 hk2
        omega
    · rw [if_neg hcmp]
      have hlow1 : 1 ≤ low := by
        by_contra hcon
        have h0 := hinv2 0 (by omega) hlen
        omega
      refine ⟨low - 1, ?_, by omega, hinv1 (low - 1) (by omega), fun h1 => ?_⟩
      · have : ((low : Int)) - 1 = (((low - 1 : Nat) : Nat) : Int) := by omega
        rw [this]
      · have heq : low - 1 + 1 = low := by omega
        rw [heq]
        exact hinv2 low (by omega) (by omega)

/-- `position_at` on a nonempty text with an in-range offset returns the
containing line and the remainder as the character. -/
lemma position_at_spec (text : List Char) (offset : Nat) (hoff : offset ≤ text.length)
    (hne : text ≠ []) :
    ∃ L : Nat, position_at (offset : Int) text
        = ⟨(L : Int), (offset : Int) - (((get_line_offsets text).getD L 0 : Nat) : Int)⟩
      ∧ L < (get_line_offsets text).length
      ∧ (get_line_offsets text).getD L 0 ≤ offset
      ∧ (L + 1 < (get_line_offsets text).length →
          offset < (get_line_offsets text).getD (L + 1) 0) := by
  obtain ⟨r, hr⟩ := get_line_offsets_head hne
  have hlen : 0 < (get_line_offsets text).length := by rw [hr]; simp
  have hhead : (get_line_offsets text).getD 0 0 = 0 := by rw [hr]; rfl
  have hclamp : (clamp (offset : Int) 0 (text.length : Int)).toNat = offset := by
    rw [clamp, min_eq_right (by exact_mod_cast hoff), max_eq_right (by positivity)]
    exact Int.toNat_natCast offset
  rw [position_at]
  simp only [hclamp]
  rw [if_neg (by omega)]
  exact pos_search_spec (get_line_offsets text) offset (get_line_offsets_sorted text) hlen
    hhead ((get_line_offsets text).length + 2) 0 ((get_line_offsets text).length + 1)
    (by omega) (by omega) (by omega)
    (fun k hk => absurd hk (by omega))
    (fun k hk1 hk2 => absurd hk1 (by omega))

/-! ## C4: offset/position round trip -/

/-- C4: for every text and every offset in `[0, len(text)]`, converting the
offset to a position with `position_at` and back with `offset_at` returns
the original offset. -/
theorem offset_position_round_trip (text : List Char) (offset : Nat)
    (h : offset ≤ text.length) :
    offset_at (position_at (offset : Nat) text) text = (offset : Nat) := by
  by_cases hne : text = []
  · subst hne
    have h0 : offset = 0 := by simpa using h
    subst h0
    rfl
  · obtain ⟨L, hpos, hL, hle, hnext⟩ := position_at_spec text offset h hne
    rw [hpos, offset_at]
    simp only [Int.toNat_natCast]
    rw [if_neg (by omega), if_neg (by omega)]
    have hX : (((get_line_offsets text).getD L 0 : Nat) : Int)
        + ((offset : Int) - (((get_line_offsets text).getD L 0 : Nat) : Int))
        = (offset : Int) := by ring
    rw [clamp, hX]
    by_cases hc : L + 1 < (get_line_offsets text).length
    · rw [if_pos hc, min_eq_left (by exact_mod_cast le_of_lt (hnext hc)),
        max_eq_right (by exact_mod_cast hle)]
    · rw [if_neg hc, min_eq_left (by exact_mod_cast h),
        max_eq_right (by exact_mod_cast hle)]

/-- Witness for C4 at a concrete text and offset. -/
theorem offset_position_round_trip_witness :
    (3 : Nat) ≤ (['a', 'b', '\n', 'c'] : List Char).length
    ∧ offset_at (position_at ((3 : Nat) : Int) ['a', 'b', '\n', 'c']) ['a', 'b', '\n', 'c']
      = ((3 : Nat) : Int) :=
  ⟨by decide, offset_position_round_trip ['a', 'b', '\n', 'c'] 3 (by decide)⟩

/-! ## C8: clamp safety of `offset_at` and `position_at` -/

/-- The clamp into `[0, len]` lands in `[0, len]`. -/
lemma clamp_mem (off : Int) (len : Nat) :
    0 ≤ clamp off 0 (len : Int) ∧ clamp off 0 (len : Int) ≤ (len : Int) :=
  ⟨le_max_left 0 _, max_le (by positivity) (min_le_left _ _)⟩

/-- Clamping a value already in range is the identity. -/
lemma clamp_of_mem (c : Int) (len : Nat) (h0 : 0 ≤ c) (h1 : c ≤ (len : Int)) :
    clamp c 0 (len : Int) = c := by
  rw [clamp, min_eq_right h1, max_eq_right h0]

/-- `position_at` treats its offset argument exactly as its clamp into
`[0, text.length]`. -/
lemma position_at_clamp (off : Int) (text : List Char) :
    position_at off text = position_at (clamp off 0 (text.length : Int)) text := by
  have h := clamp_mem off text.length
  rw [position_at, position_at, clamp_of_mem _ _ h.1 h.2]

/-- C8: `offset_at` and `position_at` are total and clamp all out-of-range
inputs.  `offset_at` returns `0` for a negative line, `text.length` for a
line at or past the table length, and otherwise a value within the line's
extent and at most `lineStart + character` (clamped from below by the line
start); `position_at` clamps its offset into `[0, len]` first and always
returns a non-negative line and character. -/
theorem offset_position_clamp_safety (text : List Char) (p : Pos) (off : Int) :
    (p.line < 0 → offset_at p text = 0)
    ∧ (((get_line_offsets text).length : Int) ≤ p.line →
        offset_at p text = (text.length : Int))
    ∧ (0 ≤ p.line → p.line < ((get_line_offsets text).length : Int) →
        (((get_line_offsets text).getD p.line.toNat 0 : Nat) : Int) ≤ offset_at p text
        ∧ offset_at p text ≤ (if p.line.toNat + 1 < (get_line_offsets text).length
            then (((get_line_offsets text).getD (p.line.toNat + 1) 0 : Nat) : Int)
            else (text.length : Int))
        ∧ offset_at p text ≤ max (((get_line_offsets text).getD p.line.toNat 0 : Nat) : Int)
            ((((get_line_offsets text).getD p.line.toNat 0 : Nat) : Int) + p.character))
    ∧ (position_at off text = position_at (clamp off 0 (text.length : Int)) text
        ∧ 0 ≤ (position_at off text).line ∧ 0 ≤ (position_at off text).character) := by
  refine ⟨?_, ?_, ?_, ?_⟩
  · intro h
    rw [offset_at, if_neg (by omega), if_pos h]
  · intro h
    rw [offset_at, if_pos h]
  · intro h0 hlt
    have hL : p.line.toNat < (get_line_offsets text).length := by omega
    have hnext : ((get_line_offsets text).getD p.line.toNat 0 : Int)
        ≤ (if p.line.toNat + 1 < (get_line_offsets text).length
            then (((get_line_offsets text).getD (p.line.toNat + 1) 0 : Nat) : Int)
            else (text.length : Int)) := by
      by_cases hc : p.line.toNat + 1 < (get_line_offsets text).length
      · rw [if_pos hc]
        exact_mod_cast table_getD_mono _ (get_line_offsets_sorted text) (by omega) hc
      · rw [if_neg hc]
        exact_mod_cast get_line_offsets_le text _ (getD_mem _ hL)
    rw [offset_at, if_neg (by omega), if_neg (by omega)]
    simp only [clamp]
    refine ⟨le_max_left _ _, ?_, ?_⟩
    · exact max_le hnext (min_le_right _ _)
    · exact max_le (le_max_left _ _) (le_trans (min_le_left _ _) (le_max_right _ _))
  · refine ⟨position_at_clamp off text, ?_⟩
    by_cases hne : text = []
    · subst hne
      rw [position_at]
      exact ⟨le_refl 0, Int.natCast_nonneg _⟩
    · rw [position_at_clamp off text]
      have h := clamp_mem off text.length
      have hle : (clamp off 0 (text.length : Int)).toNat ≤ text.length :=
        Int.toNat_le.mpr h.2
      have hcast : ((((clamp off 0 (text.length : Int)).toNat : Nat)) : Int)
          = clamp off 0 (text.length : Int) := Int.toNat_of_nonneg h.1
      obtain ⟨L, hpos, hL, hge, _⟩ :=
        position_at_spec text (clamp off 0 (text.length : Int)).toNat hle hne
      rw [hcast] at hpos
      rw [hpos]
      exact ⟨Int.natCast_nonneg _, by simp only; omega⟩

/-- Witness for C8: each clamp branch of `offset_at` at a concrete input,
plus non-negativity of `position_at` on a negative offset. -/
theorem offset_position_clamp_safety_witness :
    offset_at ⟨-1, 0⟩ ['a', '\n', 'b'] = 0
    ∧ offset_at ⟨99, 0⟩ ['a', '\n', 'b'] = ((3 : Nat) : Int)
    ∧ (((get_line_offsets ['a', '\n', 'b']).getD 1 0 : Nat) : Int)
        ≤ offset_at ⟨1, 5⟩ ['a', '\n', 'b']
    ∧ 0 ≤ (position_at (-7) ['a', '\n', 'b']).line
    ∧ 0 ≤ (position_at (-7) ['a', '\n', 'b']).character :=
  ⟨(offset_position_clamp_safety ['a', '\n', 'b'] ⟨-1, 0⟩ 0).1 (by decide),
   (offset_position_clamp_safety ['a', '\n', 'b'] ⟨99, 0⟩ 0).2.1 (by decide),
   ((offset_position_clamp_safety ['a', '\n', 'b'] ⟨1, 5⟩ 0).2.2.1 (by decide) (by decide)).1,
   (offset_position_clamp_safety ['a', '\n', 'b'] ⟨0, 0⟩ (-7)).2.2.2.2.1,
   (offset_position_clamp_safety ['a', '\n', 'b'] ⟨0, 0⟩ (-7)).2.2.2.2.2⟩

end SvelteTwoslash
